import Mathlib

/-!
Verification of the deck-clustering engine of the PokemonTCGP repository.

Shallow embedding of:
* `src/src/hashing.py` (`compute_deck_signature`): canonicalization, JSON
  serialization (`json.dumps(..., separators=(",", ":"))`), SHA-256, 8-char
  truncation.  Machine words are modelled as `Nat` reduced `% 2^32`; the byte
  stream is a `List Nat`.
* `src/scripts/cluster_decks.py`: the thermometer-encoded sparse features
  (`get_binary_features_and_buckets`), the vectorized distance
  (`calculate_dist_worker`), the Pokemon-set bitmask bucket pruning
  (`find_bucket_neighbors_worker`), the component-to-cluster grouping and the
  output ranking in `main`.  `float32`/`float64` arithmetic is modelled over
  `ℚ`: every quantity the code manipulates is a small dyadic rational (weights
  1/2, 1/8, 0/1 features), on which IEEE arithmetic is exact at these
  magnitudes.
-/

set_option maxRecDepth 10000

namespace PTCGP

/-! ### Canonicalizer data model (src/src/hashing.py) -/

/-- Normalized card entry, the shape produced by `compute_deck_signature`
(lines 19-35 of `hashing.py`): `{name, set, number, count}`. -/
structure NCard where
  name : String
  set : String
  number : String
  count : Nat
deriving DecidableEq, Repr

/-- Raw input entry to `compute_deck_signature`: a bare string, a dict with
optional fields (`card.get("name", "Unknown")` etc.; `type` may be present but
is never read), or anything else (skipped by the `else: continue` branch). -/
inductive RawCard where
  | str (s : String)
  | obj (name : Option String) (set : Option String) (number : Option String)
        (count : Option Nat) (ctype : Option String)
  | other
deriving DecidableEq, Repr

/-- Per-entry normalization, from hashing.py lines 19-35: a bare string becomes
`(name := s, set := "Energy", number := "000", count := 1)`; a dict takes its
fields with defaults `name="Unknown"`, `set=""`, `number=""`, `count=1`; any
other value is skipped (`none`). -/
def normalizeOne : RawCard → Option NCard
  | .str s => some ⟨s, "Energy", "000", 1⟩
  | .obj n st num c _ => some ⟨n.getD "Unknown", st.getD "", num.getD "", c.getD 1⟩
  | .other => none

/-- The sort key of hashing.py line 38: `(x["name"], x["set"], x["number"])`. -/
def sortKey (c : NCard) : String × String × String := (c.name, c.set, c.number)

/-- Python string `<`: code-point lexicographic comparison, with a proper
prefix smaller than the longer string.  Structurally recursive so that the
kernel can evaluate it. -/
def charListLt : List Char → List Char → Bool
  | _, [] => false
  | [], _ :: _ => true
  | a :: as, b :: bs => if a = b then charListLt as bs else decide (a < b)

theorem charListLt_irrefl : ∀ as, charListLt as as = false
  | [] => rfl
  | a :: as => by simp [charListLt, charListLt_irrefl as]

theorem charListLt_asymm : ∀ as bs, charListLt as bs = true → charListLt bs as = false
  | as, [], h => by cases as <;> simp [charListLt] at h
  | [], _ :: _, _ => rfl
  | a :: as, b :: bs, h => by
    by_cases hab : a = b
    · subst hab
      simp only [charListLt, if_pos rfl] at h ⊢
      exact charListLt_asymm as bs h
    · simp only [charListLt, if_neg hab, decide_eq_true_eq] at h
      simp only [charListLt, if_neg (Ne.symm hab), decide_eq_false_iff_not]
      exact lt_asymm h

theorem charListLt_eq_of_not : ∀ as bs, charListLt as bs = false →
    charListLt bs as = false → as = bs
  | [], [], _, _ => rfl
  | [], _ :: _, h, _ => by simp [charListLt] at h
  | _ :: _, [], _, h => by simp [charListLt] at h
  | a :: as, b :: bs, h, h' => by
    by_cases hab : a = b
    · subst hab
      simp only [charListLt, if_pos rfl] at h h'
      rw [charListLt_eq_of_not as bs h h']
    · simp only [charListLt, if_neg hab, decide_eq_false_iff_not, not_lt] at h
      simp only [charListLt, if_neg (Ne.symm hab), decide_eq_false_iff_not, not_lt] at h'
      exact absurd (le_antisymm h' h) hab

theorem charListLt_trans : ∀ as bs cs, charListLt as bs = true →
    charListLt bs cs = true → charListLt as cs = true
  | _, bs, [], _, h => by cases bs <;> simp [charListLt] at h
  | as, [], _ :: _, h, _ => by cases as <;> simp [charListLt] at h
  | [], _ :: _, _ :: _, _, _ => rfl
  | a :: as, b :: bs, c :: cs, h, h' => by
    by_cases hab : a = b
    · subst hab
      simp only [charListLt, if_pos rfl] at h
      by_cases hbc : a = c
      · subst hbc
        simp only [charListLt, if_pos rfl] at h' ⊢
        exact charListLt_trans as bs cs h h'
      · simpa only [charListLt, if_neg hbc] using h'
    · simp only [charListLt, if_neg hab, decide_eq_true_eq] at h
      by_cases hbc : b = c
      · subst hbc
        simpa only [charListLt, if_neg hab, decide_eq_true_eq] using h
      · simp only [charListLt, if_neg hbc, decide_eq_true_eq] at h'
        have hac : a < c := lt_trans h h'
        simp [charListLt, if_neg (ne_of_lt hac), hac]

/-- Python `s1 < s2` on strings. -/
def strLt (a b : String) : Prop := charListLt a.data b.data = true

/-- Python `s1 <= s2` on strings (`not (s2 < s1)`). -/
def strLe (a b : String) : Prop := charListLt b.data a.data = false

theorem strLt_or_eq_or_gt (a b : String) : strLt a b ∨ a = b ∨ strLt b a := by
  rcases h : charListLt a.data b.data with _ | _
  · rcases h' : charListLt b.data a.data with _ | _
    · refine Or.inr (Or.inl ?_)
      cases a; cases b
      exact congrArg String.mk (charListLt_eq_of_not _ _ h h')
    · exact Or.inr (Or.inr h')
  · exact Or.inl h

theorem strLt_asymm {a b : String} (h : strLt a b) : ¬ strLt b a := by
  intro h'
  have h1 : charListLt a.data b.data = true := h
  have h2 : charListLt a.data b.data = false := charListLt_asymm _ _ h'
  rw [h1] at h2
  exact Bool.noConfusion h2

/-- Sort comparison of hashing.py line 38: lexicographic on the Python tuple
`(x["name"], x["set"], x["number"])`. -/
def keyLe (a b : NCard) : Prop :=
  strLt a.name b.name ∨ (a.name = b.name ∧
    (strLt a.set b.set ∨ (a.set = b.set ∧ strLe a.number b.number)))

instance : DecidableRel strLt := fun _ _ => by unfold strLt; infer_instance

instance : DecidableRel strLe := fun _ _ => by unfold strLe; infer_instance

instance : DecidableRel keyLe := fun _ _ => by unfold keyLe; infer_instance

theorem strLe_total (a b : String) : strLe a b ∨ strLe b a := by
  rcases h : charListLt b.data a.data with _ | _
  · exact Or.inl h
  · exact Or.inr (charListLt_asymm _ _ h)

instance : IsTotal NCard keyLe := by
  constructor
  intro a b
  rcases strLt_or_eq_or_gt a.name b.name with h | h | h
  · exact Or.inl (Or.inl h)
  · rcases strLt_or_eq_or_gt a.set b.set with h2 | h2 | h2
    · exact Or.inl (Or.inr ⟨h, Or.inl h2⟩)
    · rcases strLe_total a.number b.number with h3 | h3
      · exact Or.inl (Or.inr ⟨h, Or.inr ⟨h2, h3⟩⟩)
      · exact Or.inr (Or.inr ⟨h.symm, Or.inr ⟨h2.symm, h3⟩⟩)
    · exact Or.inr (Or.inr ⟨h.symm, Or.inl h2⟩)
  · exact Or.inr (Or.inl h)

theorem strLt_trans {a b c : String} (h : strLt a b) (h' : strLt b c) : strLt a c :=
  charListLt_trans _ _ _ h h'

theorem strLe_trans {a b c : String} (h : strLe a b) (h' : strLe b c) : strLe a c := by
  have hab : charListLt b.data a.data = false := h
  have hbc : charListLt c.data b.data = false := h'
  rcases hca : charListLt c.data a.data with _ | _
  · exact hca
  · exfalso
    rcases strLt_or_eq_or_gt a b with h1 | h1 | h1
    · have h2 : charListLt c.data b.data = true := strLt_trans hca h1
      rw [hbc] at h2
      exact Bool.false_ne_true h2
    · subst h1
      rw [hbc] at hca
      exact Bool.false_ne_true hca
    · have h2 : charListLt b.data a.data = true := h1
      rw [hab] at h2
      exact Bool.false_ne_true h2

instance : IsTrans NCard keyLe := by
  constructor
  intro a b c hab hbc
  rcases hab with h1 | ⟨e1, h1⟩
  · rcases hbc with h2 | ⟨e2, _⟩
    · exact Or.inl (strLt_trans h1 h2)
    · exact Or.inl (e2 ▸ h1)
  · rcases hbc with h2 | ⟨e2, h2⟩
    · exact Or.inl (e1 ▸ h2)
    · refine Or.inr ⟨e1.trans e2, ?_⟩
      rcases h1 with h1 | ⟨f1, h1⟩
      · rcases h2 with h2 | ⟨f2, _⟩
        · exact Or.inl (strLt_trans h1 h2)
        · exact Or.inl (f2 ▸ h1)
      · rcases h2 with h2 | ⟨f2, h2⟩
        · exact Or.inl (f1 ▸ h2)
        · exact Or.inr ⟨f1.trans f2, strLe_trans h1 h2⟩

/-- Irreflexivity of the strict string order. -/
theorem strLt_irrefl (a : String) : ¬ strLt a a := fun h =>
  Bool.noConfusion ((charListLt_irrefl a.data).symm.trans h)

/-- Antisymmetry of the non-strict string order. -/
theorem strLe_antisymm {a b : String} (h : strLe a b) (h' : strLe b a) : a = b :=
  congrArg String.mk (charListLt_eq_of_not a.data b.data h' h)

/-- Mutually `keyLe`-comparable entries have equal sort keys. -/
theorem sortKey_eq_of_keyLe_keyLe {a b : NCard} (h : keyLe a b) (h' : keyLe b a) :
    sortKey a = sortKey b := by
  rcases h with h1 | ⟨e1, h1⟩
  · rcases h' with h2 | ⟨e2, _⟩
    · exact absurd h2 (strLt_asymm h1)
    · rw [e2] at h1
      exact absurd h1 (strLt_irrefl _)
  · rcases h' with h2 | ⟨e2, h2⟩
    · rw [e1] at h2
      exact absurd h2 (strLt_irrefl _)
    · rcases h1 with h1 | ⟨f1, h1⟩
      · rcases h2 with h2 | ⟨f2, _⟩
        · exact absurd h2 (strLt_asymm h1)
        · rw [f2] at h1
          exact absurd h1 (strLt_irrefl _)
      · rcases h2 with h2 | ⟨f2, h2⟩
        · rw [f1] at h2
          exact absurd h2 (strLt_irrefl _)
        · have e3 : a.number = b.number := strLe_antisymm h1 h2
          simp [sortKey, e1, f1, e3]

/-- Normalization pass plus the stable sort of hashing.py lines 19-38.  Python
`list.sort` is a stable sort by the key; `List.insertionSort` with the
non-strict key order is stable, so it computes the same list. -/
def normalizeAndSort (cards : List RawCard) : List NCard :=
  List.insertionSort keyLe (cards.filterMap normalizeOne)

/-! ### JSON serialization (json.dumps with separators=(",", ":")) -/

/-- Two lowercase hex digits of a value < 256 (helper for escapes). -/
def hexDigit (n : Nat) : Char :=
  if n < 10 then Char.ofNat (48 + n) else Char.ofNat (87 + n)

/-- Four-digit lowercase hex, as in a JSON `\uXXXX` escape. -/
def hex4 (n : Nat) : String :=
  String.mk [hexDigit (n / 4096 % 16), hexDigit (n / 256 % 16),
             hexDigit (n / 16 % 16), hexDigit (n % 16)]

/-- Escape of a single character by `json.dumps` with the default
`ensure_ascii=True` (CPython `py_encode_basestring_ascii`): `"` and `\`
get a backslash, the usual control-character shorthands apply, other
characters below 0x20 and all characters above 0x7E become `\uXXXX`
(with surrogate pairs above 0xFFFF). -/
def jsonEscapeChar (c : Char) : String :=
  if c = '"' then "\\\""
  else if c = '\\' then "\\\\"
  else if c = '\x08' then "\\b"
  else if c = '\t' then "\\t"
  else if c = '\n' then "\\n"
  else if c = '\x0c' then "\\f"
  else if c = '\r' then "\\r"
  else if c.toNat < 32 then "\\u" ++ hex4 c.toNat
  else if c.toNat ≤ 126 then String.singleton c
  else if c.toNat < 65536 then "\\u" ++ hex4 c.toNat
  else
    "\\u" ++ hex4 (55296 + (c.toNat - 65536) / 1024) ++
    "\\u" ++ hex4 (56320 + (c.toNat - 65536) % 1024)

/-- JSON string literal. -/
def jsonStr (s : String) : String :=
  "\"" ++ String.join (s.data.map jsonEscapeChar) ++ "\""

/-- Serialization of one normalized item: the dict keys appear in insertion
order `name`, `set`, `number`, `count`, with separators `(",", ":")`. -/
def serializeCard (c : NCard) : String :=
  "\x7b\"name\":" ++ jsonStr c.name ++ ",\"set\":" ++ jsonStr c.set ++
    ",\"number\":" ++ jsonStr c.number ++ ",\"count\":" ++ toString c.count ++ "\x7d"

/-- Serialization of the normalized list, hashing.py line 41:
`json.dumps(normalized_items, separators=(",", ":"))`. -/
def deckStr (items : List NCard) : String :=
  "[" ++ String.intercalate "," (items.map serializeCard) ++ "]"

/-! ### UTF-8 encoding (`.encode("utf-8")`) -/

/-- UTF-8 bytes of one scalar value. -/
def utf8Char (c : Char) : List Nat :=
  let n := c.toNat
  if n < 128 then [n]
  else if n < 2048 then [192 ||| (n >>> 6), 128 ||| (n &&& 63)]
  else if n < 65536 then
    [224 ||| (n >>> 12), 128 ||| ((n >>> 6) &&& 63), 128 ||| (n &&& 63)]
  else
    [240 ||| (n >>> 18), 128 ||| ((n >>> 12) &&& 63),
     128 ||| ((n >>> 6) &&& 63), 128 ||| (n &&& 63)]

/-- UTF-8 byte stream of a string, each byte a `Nat` below 256. -/
def utf8Bytes (s : String) : List Nat :=
  (s.data.map utf8Char).flatten

/-! ### SHA-256 (`hashlib.sha256(...).hexdigest()`), words as `Nat % 2^32` -/

/-- The 32-bit modulus. -/
def M32 : Nat := 4294967296

/-- Right rotation of a 32-bit word. -/
def rotr32 (n x : Nat) : Nat := ((x >>> n) ||| (x <<< (32 - n))) % M32

/-- Bitwise complement of a 32-bit word. -/
def not32 (x : Nat) : Nat := x ^^^ 4294967295

/-- SHA-256 `Ch` function. -/
def shaCh (x y z : Nat) : Nat := (x &&& y) ^^^ (not32 x &&& z)

/-- SHA-256 `Maj` function. -/
def shaMaj (x y z : Nat) : Nat := (x &&& y) ^^^ (x &&& z) ^^^ (y &&& z)

/-- SHA-256 big sigma 0. -/
def sigU0 (x : Nat) : Nat := rotr32 2 x ^^^ rotr32 13 x ^^^ rotr32 22 x

/-- SHA-256 big sigma 1. -/
def sigU1 (x : Nat) : Nat := rotr32 6 x ^^^ rotr32 11 x ^^^ rotr32 25 x

/-- SHA-256 small sigma 0. -/
def sigL0 (x : Nat) : Nat := rotr32 7 x ^^^ rotr32 18 x ^^^ (x >>> 3)

/-- SHA-256 small sigma 1. -/
def sigL1 (x : Nat) : Nat := rotr32 17 x ^^^ rotr32 19 x ^^^ (x >>> 10)

/-- SHA-256 round constants (FIPS 180-4, written in decimal). -/
def shaK : List Nat :=
  [
   1116352408, 1899447441, 3049323471, 3921009573, 961987163, 1508970993,
   2453635748, 2870763221, 3624381080, 310598401, 607225278, 1426881987,
   1925078388, 2162078206, 2614888103, 3248222580, 3835390401, 4022224774,
   264347078, 604807628, 770255983, 1249150122, 1555081692, 1996064986,
   2554220882, 2821834349, 2952996808, 3210313671, 3336571891, 3584528711,
   113926993, 338241895, 666307205, 773529912, 1294757372, 1396182291,
   1695183700, 1986661051, 2177026350, 2456956037, 2730485921, 2820302411,
   3259730800, 3345764771, 3516065817, 3600352804, 4094571909, 275423344,
   430227734, 506948616, 659060556, 883997877, 958139571, 1322822218,
   1537002063, 1747873779, 1955562222, 2024104815, 2227730452, 2361852424,
   2428436474, 2756734187, 3204031479, 3329325298]

/-- SHA-256 initial hash value (FIPS 180-4, written in decimal). -/
def shaH0 : List Nat :=
  [
   1779033703, 3144134277, 1013904242, 2773480762,
   1359893119, 2600822924, 528734635, 1541459225]

/-- Big-endian 8-byte encoding of the bit length. -/
def be64 (n : Nat) : List Nat :=
  [n >>> 56 % 256, n >>> 48 % 256, n >>> 40 % 256, n >>> 32 % 256,
   n >>> 24 % 256, n >>> 16 % 256, n >>> 8 % 256, n % 256]

/-- SHA-256 message padding: `0x80`, zeros to 56 mod 64, 64-bit bit length. -/
def shaPad (msg : List Nat) : List Nat :=
  let len := msg.length
  let zeros := (119 - len % 64) % 64
  msg ++ [128] ++ List.replicate zeros 0 ++ be64 (8 * len)

/-- Four big-endian bytes to a 32-bit word. -/
def wordOfBytes : List Nat → Nat
  | [a, b, c, d] => a <<< 24 + b <<< 16 + c <<< 8 + d
  | _ => 0

/-- Message-schedule extension: appends `fuel` further words, each
`sigL1 w[t-2] + w[t-7] + sigL0 w[t-15] + w[t-16] mod 2^32`. -/
def extendW : Nat → List Nat → List Nat
  | 0, ws => ws
  | fuel + 1, ws =>
    let t := ws.length
    let nw := (sigL1 (ws.getD (t - 2) 0) + ws.getD (t - 7) 0 +
               sigL0 (ws.getD (t - 15) 0) + ws.getD (t - 16) 0) % M32
    extendW fuel (ws ++ [nw])

/-- One compression round over the 8-word state. -/
def shaRound (st : List Nat) (kw : Nat × Nat) : List Nat :=
  match st with
  | [a, b, c, d, e, f, g, h] =>
    let t1 := (h + sigU1 e + shaCh e f g + kw.1 + kw.2) % M32
    let t2 := (sigU0 a + shaMaj a b c) % M32
    [(t1 + t2) % M32, a, b, c, (d + t1) % M32, e, f, g]
  | other => other

/-- Process one 64-byte chunk. -/
def shaChunk (h : List Nat) (chunk : List Nat) : List Nat :=
  let ws := extendW 48 ((chunk.toChunks 4).map wordOfBytes)
  let st := (shaK.zip ws).foldl shaRound h
  (h.zip st).map (fun p => (p.1 + p.2) % M32)

/-- SHA-256 digest of a byte stream as eight 32-bit words. -/
def sha256Words (msg : List Nat) : List Nat :=
  ((shaPad msg).toChunks 64).foldl shaChunk shaH0

/-- Eight lowercase hex digits of a 32-bit word. -/
def hex8 (w : Nat) : String :=
  hex4 (w >>> 16) ++ hex4 (w % 65536)

/-- Lowercase hex digest, as returned by `.hexdigest()`. -/
def sha256Hex (msg : List Nat) : String :=
  String.join ((sha256Words msg).map hex8)

/-- The full embedding of `compute_deck_signature` (hashing.py lines 5-47):
returns the first 8 hex characters (`full_hash[:8]`, realized on the character list) of the SHA-256 of the canonical
serialization, together with the normalized item list. -/
def compute_deck_signature (cards : List RawCard) : String × List NCard :=
  let items := normalizeAndSort cards
  (String.mk ((sha256Hex (utf8Bytes (deckStr items))).data.take 8), items)

/-! ### Distance pipeline (src/scripts/cluster_decks.py)

`get_binary_features_and_buckets` reads, for each card dict, `c["name"]`,
`c.get("type", "Unknown")` and `c.get("count", 1)`; a card entry for the
clustering pipeline is modelled after those reads. -/

/-- Card entry as seen by the clustering script. -/
structure CCard where
  name : String
  ctype : String
  count : Nat
deriving DecidableEq, Repr

/-- Card-identity key of the distance metric: `(c["name"], c.get("type"))`
(cluster_decks.py lines 35, 73). -/
abbrev CKey := String × String

/-- Key of one entry. -/
def ckey (c : CCard) : CKey := (c.name, c.ctype)

/-- Per-type weight (cluster_decks.py lines 48-52): 0.5 for Pokemon,
0.125 otherwise. -/
def wt (k : CKey) : ℚ := if k.2 = "Pokemon" then 1/2 else 1/8

/-- Entry `F_binary[d, 2k]` of the sparse thermometer matrix: the number of
entries of `d` with key `k` and `count >= 1` (lines 81-84; `csr_matrix` sums
duplicate coordinates, so a repeated key accumulates). -/
def fb1 (d : List CCard) (k : CKey) : Nat :=
  d.countP (fun c => decide (ckey c = k) && decide (1 ≤ c.count))

/-- Entry `F_binary[d, 2k+1]` (= `X2_binary[d, k]`): the number of entries of
`d` with key `k` and `count >= 2` (lines 90-96). -/
def fb2 (d : List CCard) (k : CKey) : Nat :=
  d.countP (fun c => decide (ckey c = k) && decide (2 ≤ c.count))

/-- Entry `X1_binary[d, k]`: the number of entries of `d` with key `k` and
`count == 1` (lines 85-88). -/
def x1c (d : List CCard) (k : CKey) : Nat :=
  d.countP (fun c => decide (ckey c = k) && decide (c.count = 1))

/-- Row norm `F_binary[d] . feature_weights`, with
`feature_weights[2k] = feature_weights[2k+1] = 2*w(k)` (lines 54-56, 206). -/
def norms (ks : List CKey) (d : List CCard) : ℚ :=
  (ks.map (fun k => 2 * wt k * ((fb1 d k : ℚ) + (fb2 d k : ℚ)))).sum

/-- The intersection term of `calculate_dist_worker` (lines 170-173):
`F_weighted[a] . F_bin[b]` summed across both thermometer columns. -/
def inters (ks : List CKey) (a b : List CCard) : ℚ :=
  (ks.map (fun k => 2 * wt k * ((fb1 a k : ℚ) * (fb1 b k : ℚ)) +
                    2 * wt k * ((fb2 a k : ℚ) * (fb2 b k : ℚ)))).sum

/-- The correction term (lines 176-183):
`X1_weighted[a] . X2[b] + X2_weighted[a] . X1[b]`. -/
def correction (ks : List CKey) (a b : List CCard) : ℚ :=
  (ks.map (fun k => wt k * ((x1c a k : ℚ) * (fb2 b k : ℚ)) +
                    wt k * ((fb2 a k : ℚ) * (x1c b k : ℚ)))).sum

/-- The vectorized distance of `calculate_dist_worker` line 188:
`norms[a] + norms[b] - 2*inters - correction`, over the feature space built
from the global sorted key list `ks`. -/
def vdist (ks : List CKey) (a b : List CCard) : ℚ :=
  norms ks a + norms ks b - 2 * inters ks a b - correction ks a b

/-- Edge acceptance (line 190): `dists <= threshold + 1e-6`. -/
def acceptEdge (thr : ℚ) (ks : List CKey) (a b : List CCard) : Prop :=
  vdist ks a b ≤ thr + 1 / 1000000

instance (thr ks a b) : Decidable (acceptEdge thr ks a b) := by
  unfold acceptEdge; infer_instance

/-- Reference per-card count map of spec section 4.2 (a second definition
following the spec's words, for the refinement claims): total count of key `k`
in deck `d`, summing counts when a card key repeats. -/
def cnt (d : List CCard) (k : CKey) : Nat :=
  ((d.filter (fun c => decide (ckey c = k))).map CCard.count).sum

/-- Per-key term of the reference formula of spec section 4.2: both counts
positive contribute `|count_A - count_B| * w`, a single positive side
contributes `max * 2*w`. -/
def specTerm (a b : List CCard) (k : CKey) : ℚ :=
  if cnt a k ≠ 0 ∧ cnt b k ≠ 0 then |(cnt a k : ℚ) - (cnt b k : ℚ)| * wt k
  else if cnt a k ≠ 0 ∨ cnt b k ≠ 0 then (max (cnt a k) (cnt b k) : ℚ) * (2 * wt k)
  else 0

/-- Reference distance of spec section 4.2, summed over a key list covering
both decks. -/
def specDist (ks : List CKey) (a b : List CCard) : ℚ :=
  (ks.map (specTerm a b)).sum

/-! ### Presence bucketer (lines 63-109 and `find_bucket_neighbors_worker`) -/

/-- Distinct keys of the Pokemon-typed entries of a deck (lines 72-79; the
entry joins `pokemon_set` regardless of its count). -/
def pokemonKeys (d : List CCard) : Finset CKey :=
  ((d.filter (fun c => decide (c.ctype = "Pokemon"))).map ckey).toFinset

/-- Index of a key in the global sorted key list (`key_to_idx`); the `BEq`
instance is the one derived from decidable equality. -/
def keyIdx (ks : List CKey) (k : CKey) : Nat :=
  @List.indexOf CKey instBEqOfDecidableEq k ks

/-- Feature indices of a deck's Pokemon keys (`pokemon_set` of lines 70-79). -/
def pokemonIdxs (ks : List CKey) (d : List CCard) : Finset Nat :=
  (pokemonKeys d).image (keyIdx ks)

/-- Bitmask of an index set: `mask |= (1 << p_idx)` over the set
(lines 100-102). -/
def maskOf (s : Finset Nat) : Nat := s.sum (fun i => 2 ^ i)

/-- Bucket mask of a deck. -/
def deckMask (ks : List CKey) (d : List CCard) : Nat := maskOf (pokemonIdxs ks d)

/-- The popcount-at-most-2 test of `find_bucket_neighbors_worker`
(lines 139-154): XOR the masks, then clear the lowest set bit up to twice
with `y = x & (x - 1)`. -/
def bucketNeighbor (m1 m2 : Nat) : Bool :=
  let x := m1 ^^^ m2
  if x = 0 then true
  else
    let y := x &&& (x - 1)
    if y = 0 then true
    else
      let z := y &&& (y - 1)
      z == 0

/-- Count clamping: the feature encoding only tests `count >= 1`, `== 1`,
`>= 2`, so replacing each count by `min count 2` is invisible to it. -/
def clampDeck (d : List CCard) : List CCard :=
  d.map (fun c => ⟨c.name, c.ctype, min c.count 2⟩)

/-! ### Cluster assembly and output ranking (cluster_decks.py lines 297-360) -/

/-- Grouping of deck signatures by component label (lines 302-304: the loop
appends `sigs[idx]` to `clusters[label]` in index order, so cluster `l` is the
in-order sublist of `sigs` whose label is `l`). -/
def buildClusters (m : Nat) (sigs : List String) (labels : List Nat) :
    List (List String) :=
  (List.range m).map (fun l => ((sigs.zip labels).filter (fun p => p.2 == l)).map Prod.fst)

/-- Output record written by `main` (lines 343-349); `representative_name` is
a lookup of the representative and is omitted from the model. -/
structure ClusterOut where
  id : Nat
  representative_sig : String
  signatures : List String
  count : Nat
deriving DecidableEq, Repr

/-- Total `stats.players` over a member list (`get_cluster_players`). -/
def playersOf (stats : String → Nat) (sigs : List String) : Nat :=
  (sigs.map stats).sum

/-- Comparison used by `cluster_sigs.sort(key=..., reverse=True)` (line 339):
stable descending by player count. -/
def memberGe (stats : String → Nat) (a b : String) : Prop := stats b ≤ stats a

instance (stats) : DecidableRel (memberGe stats) := fun _ _ => by
  unfold memberGe; infer_instance

/-- Comparison used by `output_data.sort(key=get_cluster_players,
reverse=True)` (line 354). -/
def clusterGe (stats : String → Nat) (c1 c2 : ClusterOut) : Prop :=
  playersOf stats c2.signatures ≤ playersOf stats c1.signatures

instance (stats) : DecidableRel (clusterGe stats) := fun _ _ => by
  unfold clusterGe; infer_instance

/-- The `main` post-processing (lines 332-354): each cluster's members are
sorted by players descending, the record gets `id := i` from the pre-sort
enumeration order, and only then is the output list sorted by total players
descending.  Python's sorts are stable; `List.insertionSort` over the
non-strict orders is the same stable sort. -/
def mainOutput (stats : String → Nat) (clusters : List (List String)) :
    List ClusterOut :=
  let base := clusters.enum.map (fun p =>
    let sorted := List.insertionSort (memberGe stats) p.2
    ClusterOut.mk p.1 (sorted.headD "") sorted sorted.length)
  List.insertionSort (clusterGe stats) base

/-- Exit behaviour of `main` (lines 314-325): on a missing cache file, and on
a cache with no `signatures`, it logs the error and returns from `main`, so
the interpreter exits with status 0; otherwise the pipeline runs and the
output file is written.  Result: `(process exit status, whether the output
file was written)`. -/
def scriptExit {α : Type} : Option (List α) → Nat × Bool
  | none => (0, false)
  | some sigs => if sigs.isEmpty then (0, false) else (0, true)

/-! ## Theorems -/

/-- C2: the distance function returns exactly the spec's worked-example values:
`{Pikachu x2}` vs `{Pikachu x2}` is `0`, `{Pikachu x2}` vs `{Pikachu x1}` is
`1/2`, `{Pikachu x2, Zacian x1}` vs `{Pikachu x1, Zacian x2}` is `1`,
`{Pikachu x1}` vs `{Zacian x1}` is `2`, and `{Research(Support) x2}` vs
`{Research x1, Shrine(Stadium) x1}` is `3/8`, each evaluated over the feature
space built from the two decks. -/
theorem metric_worked_examples :
    vdist [("Pikachu", "Pokemon")] [⟨"Pikachu", "Pokemon", 2⟩] [⟨"Pikachu", "Pokemon", 2⟩] = 0
    ∧ vdist [("Pikachu", "Pokemon")] [⟨"Pikachu", "Pokemon", 2⟩] [⟨"Pikachu", "Pokemon", 1⟩] = 1/2
    ∧ vdist [("Pikachu", "Pokemon"), ("Zacian", "Pokemon")]
        [⟨"Pikachu", "Pokemon", 2⟩, ⟨"Zacian", "Pokemon", 1⟩]
        [⟨"Pikachu", "Pokemon", 1⟩, ⟨"Zacian", "Pokemon", 2⟩] = 1
    ∧ vdist [("Pikachu", "Pokemon"), ("Zacian", "Pokemon")]
        [⟨"Pikachu", "Pokemon", 1⟩] [⟨"Zacian", "Pokemon", 1⟩] = 2
    ∧ vdist [("Research", "Support"), ("Shrine", "Stadium")]
        [⟨"Research", "Support", 2⟩]
        [⟨"Research", "Support", 1⟩, ⟨"Shrine", "Stadium", 1⟩] = 3/8 := by
  refine ⟨?_, ?_, ?_, ?_, ?_⟩ <;>
    simp [vdist, norms, inters, correction, wt, fb1, fb2, x1c, ckey,
      List.countP_cons] <;> norm_num

/-- C1: the vectorized distance diverges from the reference per-card formula
of spec section 4.2.  A deck holding the same `(name, type)` key twice (two
printings of one Pokemon, count 1 each) against a deck holding it once with
count 2 gets vectorized distance `-1` where the reference formula (counts
summed per key: 2 on both sides) gives `0`; and with three extra Pokemon the
vectorized distance is `1` (an accepted edge at the default threshold) where
the reference distance is `4` (rejected). -/
theorem vectorized_distance_diverges_from_reference :
    vdist [("Pikachu", "Pokemon")]
      [⟨"Pikachu", "Pokemon", 1⟩, ⟨"Pikachu", "Pokemon", 1⟩]
      [⟨"Pikachu", "Pokemon", 2⟩] = -1
    ∧ specDist [("Pikachu", "Pokemon")]
      [⟨"Pikachu", "Pokemon", 1⟩, ⟨"Pikachu", "Pokemon", 1⟩]
      [⟨"Pikachu", "Pokemon", 2⟩] = 0
    ∧ vdist [("P", "Pokemon"), ("Q", "Pokemon"), ("R", "Pokemon"), ("X", "Pokemon")]
      [⟨"P", "Pokemon", 1⟩, ⟨"Q", "Pokemon", 1⟩, ⟨"R", "Pokemon", 1⟩,
       ⟨"X", "Pokemon", 1⟩, ⟨"X", "Pokemon", 1⟩, ⟨"X", "Pokemon", 1⟩]
      [⟨"X", "Pokemon", 1⟩] = 1
    ∧ specDist [("P", "Pokemon"), ("Q", "Pokemon"), ("R", "Pokemon"), ("X", "Pokemon")]
      [⟨"P", "Pokemon", 1⟩, ⟨"Q", "Pokemon", 1⟩, ⟨"R", "Pokemon", 1⟩,
       ⟨"X", "Pokemon", 1⟩, ⟨"X", "Pokemon", 1⟩, ⟨"X", "Pokemon", 1⟩]
      [⟨"X", "Pokemon", 1⟩] = 4
    ∧ acceptEdge 1 [("P", "Pokemon"), ("Q", "Pokemon"), ("R", "Pokemon"), ("X", "Pokemon")]
      [⟨"P", "Pokemon", 1⟩, ⟨"Q", "Pokemon", 1⟩, ⟨"R", "Pokemon", 1⟩,
       ⟨"X", "Pokemon", 1⟩, ⟨"X", "Pokemon", 1⟩, ⟨"X", "Pokemon", 1⟩]
      [⟨"X", "Pokemon", 1⟩]
    ∧ ¬ (specDist [("P", "Pokemon"), ("Q", "Pokemon"), ("R", "Pokemon"), ("X", "Pokemon")]
      [⟨"P", "Pokemon", 1⟩, ⟨"Q", "Pokemon", 1⟩, ⟨"R", "Pokemon", 1⟩,
       ⟨"X", "Pokemon", 1⟩, ⟨"X", "Pokemon", 1⟩, ⟨"X", "Pokemon", 1⟩]
      [⟨"X", "Pokemon", 1⟩] ≤ 1 + 1 / 1000000) := by
  refine ⟨?_, ?_, ?_, ?_, ?_, ?_⟩ <;>
    simp [vdist, norms, inters, correction, wt, fb1, fb2, x1c, ckey, acceptEdge,
      specDist, specTerm, cnt, List.countP_cons] <;> norm_num

/-- C8: with a missing cache file, and with a cache whose `signatures` entry
is empty, `main` logs the error and returns without writing the output file;
the process then terminates normally, so the exit status is `0` -- not the
non-zero failure status the spec asks for. -/
theorem missing_cache_exits_zero_without_output :
    scriptExit (α := Unit) none = (0, false)
    ∧ scriptExit (some ([] : List Unit)) = (0, false)
    ∧ (0 : Nat) ≠ 1 := by
  exact ⟨rfl, rfl, by decide⟩

/-- C10: canonicalization skips exactly the entries that are neither a string
nor a dict; a dict is normalized with defaults `name="Unknown"`, `set=""`,
`number=""`, `count=1`; a bare string becomes
`(name := s, set := "Energy", number := "000", count := 1)`; and the returned
normalized list is a permutation of the normalized input entries, sorted by
`(name, set, number)`. -/
theorem canonicalization_normalizes_and_sorts (cards : List RawCard) :
    (compute_deck_signature cards).2 =
      List.insertionSort keyLe (cards.filterMap normalizeOne)
    ∧ ((compute_deck_signature cards).2).Perm (cards.filterMap normalizeOne)
    ∧ ((compute_deck_signature cards).2).Sorted keyLe
    ∧ normalizeOne RawCard.other = none
    ∧ (∀ s, normalizeOne (RawCard.str s) = some ⟨s, "Energy", "000", 1⟩)
    ∧ (∀ n st num c t, normalizeOne (RawCard.obj n st num c t) =
        some ⟨n.getD "Unknown", st.getD "", num.getD "", c.getD 1⟩) := by
  refine ⟨rfl, ?_, ?_, rfl, fun s => rfl, fun n st num c t => rfl⟩
  · exact List.perm_insertionSort keyLe (cards.filterMap normalizeOne)
  · exact List.sorted_insertionSort keyLe (cards.filterMap normalizeOne)

instance (stats : String → Nat) : IsTotal ClusterOut (clusterGe stats) :=
  ⟨fun a b => le_total (playersOf stats b.signatures) (playersOf stats a.signatures)⟩

instance (stats : String → Nat) : IsTrans ClusterOut (clusterGe stats) :=
  ⟨fun _ _ _ h h' => le_trans h' h⟩

/-- C7 (amended): the written output is ordered by total `stats.players`
descending, and the `id` fields are the pre-sort component indices -- a
permutation of `0..n-1`, not reassigned after the sort. -/
theorem output_sorted_by_players_ids_permuted (stats : String → Nat)
    (clusters : List (List String)) :
    (mainOutput stats clusters).Sorted (clusterGe stats)
    ∧ ((mainOutput stats clusters).map ClusterOut.id).Perm
        (List.range clusters.length) := by
  constructor
  · exact List.sorted_insertionSort _ _
  · have h1 : ((mainOutput stats clusters).map ClusterOut.id).Perm
        ((clusters.enum.map (fun p =>
          let sorted := List.insertionSort (memberGe stats) p.2
          ClusterOut.mk p.1 (sorted.headD "") sorted sorted.length)).map ClusterOut.id) :=
      (List.perm_insertionSort _ _).map _
    rw [List.map_map] at h1
    have h2 : (ClusterOut.id ∘ fun p : Nat × List String =>
        let sorted := List.insertionSort (memberGe stats) p.2
        ClusterOut.mk p.1 (sorted.headD "") sorted sorted.length) = Prod.fst := rfl
    rw [h2, List.enum_map_fst] at h1
    exact h1

/-- C7 (counterexample): with component 0 = `{"a"}` (1 player) and component
1 = `{"b"}` (2 players), the written output is ordered `b` first but its `id`
field is `1`: the ids are `[1, 0]`, not the dense rank order `[0, 1]` the
claim asserts. -/
theorem output_id_is_not_rank :
    (mainOutput (fun s => if s = "b" then 2 else 1) [["a"], ["b"]]).map
      ClusterOut.id = [1, 0]
    ∧ (mainOutput (fun s => if s = "b" then 2 else 1) [["a"], ["b"]]).map
        (fun c => playersOf (fun s => if s = "b" then 2 else 1) c.signatures) = [2, 1]
    ∧ ([1, 0] : List Nat) ≠ List.range 2 := by
  refine ⟨?_, ?_, ?_⟩ <;> decide

/-- Equality of raw entries up to the `type` field (which `compute_deck_signature`
never reads). -/
def sameUpToType : RawCard → RawCard → Prop
  | .obj n1 s1 m1 c1 _, .obj n2 s2 m2 c2 _ => n1 = n2 ∧ s1 = s2 ∧ m1 = m2 ∧ c1 = c2
  | x, y => x = y

instance : ∀ a b, Decidable (sameUpToType a b) := fun a b => by
  cases a <;> cases b <;> simp only [sameUpToType] <;> infer_instance

theorem normalizeOne_congr : ∀ {a b : RawCard}, sameUpToType a b →
    normalizeOne a = normalizeOne b := by
  intro a b h
  cases a <;> cases b <;> simp_all [sameUpToType, normalizeOne]

/-- C5 (amended): the `type` field never affects the signature: two card lists
equal entry-by-entry except for `type` produce identical signatures (and
identical normalized lists). -/
theorem type_never_affects_signature {L L' : List RawCard}
    (h : List.Forall₂ sameUpToType L L') :
    compute_deck_signature L = compute_deck_signature L' := by
  have hfm : L.filterMap normalizeOne = L'.filterMap normalizeOne := by
    induction h with
    | nil => rfl
    | cons h₁ _ ih => simp [List.filterMap_cons, normalizeOne_congr h₁, ih]
  unfold compute_deck_signature normalizeAndSort
  rw [hfm]

/-- C5 (witness): a concrete entry with its `type` flipped from `Pokemon` to
`Trainer` keeps the signature. -/
theorem type_never_affects_signature_witness :
    List.Forall₂ sameUpToType
      [RawCard.obj (some "A") (some "s") (some "1") (some 1) (some "Pokemon")]
      [RawCard.obj (some "A") (some "s") (some "1") (some 1) (some "Trainer")]
    ∧ compute_deck_signature
        [RawCard.obj (some "A") (some "s") (some "1") (some 1) (some "Pokemon")] =
      compute_deck_signature
        [RawCard.obj (some "A") (some "s") (some "1") (some 1) (some "Trainer")] :=
  ⟨List.Forall₂.cons ⟨rfl, rfl, rfl, rfl⟩ List.Forall₂.nil,
   type_never_affects_signature
     (List.Forall₂.cons ⟨rfl, rfl, rfl, rfl⟩ List.Forall₂.nil)⟩

/-- C5 (counterexample): the `name` does affect the signature: renaming the
single entry from `A` to `B` (same set, number, count) changes the 8-character
signature (`1187c6b6` vs `13ac5f6e`). -/
theorem name_change_changes_signature :
    (compute_deck_signature
        [RawCard.obj (some "A") (some "s") (some "1") (some 1) none]).1 = "1187c6b6"
    ∧ (compute_deck_signature
        [RawCard.obj (some "B") (some "s") (some "1") (some 1) none]).1 = "13ac5f6e"
    ∧ (compute_deck_signature
        [RawCard.obj (some "A") (some "s") (some "1") (some 1) none]).1 ≠
      (compute_deck_signature
        [RawCard.obj (some "B") (some "s") (some "1") (some 1) none]).1 := by
  refine ⟨?_, ?_, ?_⟩ <;> decide

/-- A `keyLe`-sorted list is determined by its multiset as soon as entries
with equal sort keys are equal. -/
theorem sorted_perm_eq : ∀ {l₁ l₂ : List NCard}, l₁.Perm l₂ →
    l₁.Sorted keyLe → l₂.Sorted keyLe →
    (∀ a ∈ l₁, ∀ b ∈ l₁, sortKey a = sortKey b → a = b) → l₁ = l₂
  | [], l₂, hp, _, _, _ => hp.nil_eq
  | a :: l₁, [], hp, _, _, _ => by
    exact absurd hp.symm.nil_eq (by simp)
  | a :: l₁, b :: l₂, hp, h₁, h₂, hties => by
    have hab : a = b := by
      by_contra hne
      have hbmem : b ∈ a :: l₁ := hp.symm.subset (List.mem_cons_self b l₂)
      have hamem : a ∈ b :: l₂ := hp.subset (List.mem_cons_self a l₁)
      have hb₁ : b ∈ l₁ := by
        rcases List.mem_cons.mp hbmem with h | h
        · exact absurd h.symm hne
        · exact h
      have ha₂ : a ∈ l₂ := by
        rcases List.mem_cons.mp hamem with h | h
        · exact absurd h hne
        · exact h
      have hk1 : keyLe a b := List.rel_of_sorted_cons h₁ b hb₁
      have hk2 : keyLe b a := List.rel_of_sorted_cons h₂ a ha₂
      exact hne (hties a (List.mem_cons_self a l₁) b (List.mem_cons_of_mem a hb₁)
        (sortKey_eq_of_keyLe_keyLe hk1 hk2))
    subst hab
    have hp' : l₁.Perm l₂ := hp.cons_inv
    have hrec := sorted_perm_eq hp' h₁.of_cons h₂.of_cons
      (fun x hx y hy hxy =>
        hties x (List.mem_cons_of_mem a hx) y (List.mem_cons_of_mem a hy) hxy)
    rw [hrec]

/-- C4 (amended): the signature is invariant under every permutation of the
card list, provided no two normalized entries share the sort key
`(name, set, number)` while differing (in `count`); Python's stable sort then
produces the same canonical list for any input order. -/
theorem signature_stable_under_permutation (L L' : List RawCard) (hperm : L.Perm L')
    (hties : ∀ a ∈ L.filterMap normalizeOne, ∀ b ∈ L.filterMap normalizeOne,
      sortKey a = sortKey b → a = b) :
    compute_deck_signature L = compute_deck_signature L' := by
  have hN : (L.filterMap normalizeOne).Perm (L'.filterMap normalizeOne) :=
    hperm.filterMap _
  have hS : (normalizeAndSort L).Perm (normalizeAndSort L') :=
    ((List.perm_insertionSort _ _).trans hN).trans
      (List.perm_insertionSort _ _).symm
  have hties' : ∀ a ∈ normalizeAndSort L, ∀ b ∈ normalizeAndSort L,
      sortKey a = sortKey b → a = b := fun x hx y hy hxy =>
    hties x ((List.mem_insertionSort keyLe).mp hx) y ((List.mem_insertionSort keyLe).mp hy) hxy
  have hEq : normalizeAndSort L = normalizeAndSort L' :=
    sorted_perm_eq hS (List.sorted_insertionSort _ _)
      (List.sorted_insertionSort _ _) hties'
  unfold compute_deck_signature
  rw [hEq]

/-- C4 (witness): a concrete two-entry list with distinct sort keys and its
swap get the same signature. -/
theorem signature_stable_under_permutation_witness :
    ([RawCard.str "E", RawCard.obj (some "A") (some "s") (some "1") (some 1) none] :
        List RawCard).Perm
      [RawCard.obj (some "A") (some "s") (some "1") (some 1) none, RawCard.str "E"]
    ∧ (∀ a ∈ ([RawCard.str "E",
          RawCard.obj (some "A") (some "s") (some "1") (some 1) none] :
          List RawCard).filterMap normalizeOne,
        ∀ b ∈ ([RawCard.str "E",
          RawCard.obj (some "A") (some "s") (some "1") (some 1) none] :
          List RawCard).filterMap normalizeOne, sortKey a = sortKey b → a = b)
    ∧ compute_deck_signature
        [RawCard.str "E", RawCard.obj (some "A") (some "s") (some "1") (some 1) none] =
      compute_deck_signature
        [RawCard.obj (some "A") (some "s") (some "1") (some 1) none, RawCard.str "E"] :=
  ⟨by decide, by decide,
   signature_stable_under_permutation _ _ (by decide) (by decide)⟩

/-- C4 (counterexample): two entries with the same `(name, set, number)` but
counts 1 and 2: swapping them changes the signature (`26a744ee` vs
`530f363e`), because the stable sort keeps tied entries in input order and the
serialization includes the counts. -/
theorem signature_not_stable_on_tied_keys :
    ([RawCard.obj (some "A") (some "s") (some "1") (some 1) none,
      RawCard.obj (some "A") (some "s") (some "1") (some 2) none] : List RawCard).Perm
      [RawCard.obj (some "A") (some "s") (some "1") (some 2) none,
       RawCard.obj (some "A") (some "s") (some "1") (some 1) none]
    ∧ (compute_deck_signature
        [RawCard.obj (some "A") (some "s") (some "1") (some 1) none,
         RawCard.obj (some "A") (some "s") (some "1") (some 2) none]).1 = "26a744ee"
    ∧ (compute_deck_signature
        [RawCard.obj (some "A") (some "s") (some "1") (some 2) none,
         RawCard.obj (some "A") (some "s") (some "1") (some 1) none]).1 = "530f363e"
    ∧ (compute_deck_signature
        [RawCard.obj (some "A") (some "s") (some "1") (some 1) none,
         RawCard.obj (some "A") (some "s") (some "1") (some 2) none]).1 ≠
      (compute_deck_signature
        [RawCard.obj (some "A") (some "s") (some "1") (some 2) none,
         RawCard.obj (some "A") (some "s") (some "1") (some 1) none]).1 := by
  refine ⟨?_, ?_, ?_, ?_⟩ <;> decide

/-! ### Per-key decomposition of the vectorized distance -/

/-- Contribution of a single feature key to `vdist`. -/
def vterm (a b : List CCard) (k : CKey) : ℚ :=
  2 * wt k * ((fb1 a k : ℚ) + (fb2 a k : ℚ)) + 2 * wt k * ((fb1 b k : ℚ) + (fb2 b k : ℚ))
  - 2 * (2 * wt k * ((fb1 a k : ℚ) * (fb1 b k : ℚ)) + 2 * wt k * ((fb2 a k : ℚ) * (fb2 b k : ℚ)))
  - (wt k * ((x1c a k : ℚ) * (fb2 b k : ℚ)) + wt k * ((fb2 a k : ℚ) * (x1c b k : ℚ)))

theorem vdist_nil (a b : List CCard) : vdist [] a b = 0 := by
  simp [vdist, norms, inters, correction]

theorem vdist_cons (k : CKey) (ks : List CKey) (a b : List CCard) :
    vdist (k :: ks) a b = vterm a b k + vdist ks a b := by
  simp only [vdist, norms, inters, correction, vterm, List.map_cons, List.sum_cons]
  ring

theorem vdist_eq_sum_vterm (ks : List CKey) (a b : List CCard) :
    vdist ks a b = (ks.map (vterm a b)).sum := by
  induction ks with
  | nil => simp [vdist_nil]
  | cons k ks ih => rw [vdist_cons, ih, List.map_cons, List.sum_cons]

theorem wt_pos (k : CKey) : 0 < wt k := by
  unfold wt
  split <;> norm_num

/-- `X1 + X2 = F`: the count-1 and the count-at-least-2 entries partition the
count-at-least-1 entries of a key. -/
theorem fb1_eq_x1c_add_fb2 (d : List CCard) (k : CKey) :
    fb1 d k = x1c d k + fb2 d k := by
  induction d with
  | nil => rfl
  | cons c d ih =>
    simp only [fb1, x1c, fb2, List.countP_cons] at ih ⊢
    rcases hk : decide (ckey c = k) with _ | _
    · simp only [hk, Bool.false_and, if_neg Bool.false_ne_true]
      omega
    · simp only [hk, Bool.true_and]
      by_cases h1 : c.count = 1
      · have h2 : ¬ 2 ≤ c.count := by omega
        have h0 : 1 ≤ c.count := by omega
        simp only [decide_eq_true_eq, if_pos h0, if_pos h1, if_neg h2]
        omega
      · by_cases h2 : 2 ≤ c.count
        · have h0 : 1 ≤ c.count := by omega
          simp only [decide_eq_true_eq, if_pos h0, if_neg h1, if_pos h2]
          omega
        · have h0 : ¬ 1 ≤ c.count := by omega
          simp only [decide_eq_true_eq, if_neg h0, if_neg h1, if_neg h2]
          omega

theorem fb2_le_fb1 (d : List CCard) (k : CKey) : fb2 d k ≤ fb1 d k := by
  apply List.countP_mono_left
  intro c _ h
  rcases Bool.and_eq_true .. |>.mp h with ⟨h1, h2⟩
  rw [Bool.and_eq_true, h1]
  refine ⟨rfl, ?_⟩
  simp only [decide_eq_true_eq] at h2 ⊢
  omega

/-- In a deck whose `(name, type)` keys are pairwise distinct, at most one
entry carries any given key. -/
theorem countP_key_le_one {d : List CCard} (h : (d.map ckey).Nodup) (k : CKey) :
    d.countP (fun c => decide (ckey c = k)) ≤ 1 := by
  induction d with
  | nil => simp
  | cons c d ih =>
    simp only [List.map_cons, List.nodup_cons] at h
    rcases h with ⟨hnm, hnd⟩
    rw [List.countP_cons]
    rcases hck : decide (ckey c = k) with _ | _
    · simp only [hck, if_neg Bool.false_ne_true]
      simpa using ih hnd
    · simp only [decide_eq_true_eq] at hck
      subst hck
      have hz : d.countP (fun c' => decide (ckey c' = ckey c)) = 0 := by
        rw [List.countP_eq_zero]
        intro c' hc'
        simp only [decide_eq_true_eq]
        intro hkk
        exact hnm (hkk ▸ List.mem_map_of_mem ckey hc')
      simp [hz]

theorem fb1_le_one {d : List CCard} (h : (d.map ckey).Nodup) (k : CKey) :
    fb1 d k ≤ 1 := by
  refine le_trans ?_ (countP_key_le_one h k)
  apply List.countP_mono_left
  intro c _ hc
  exact (Bool.and_eq_true .. |>.mp hc).1

/-- The three `fb` values at one key, for a deck with distinct keys: either the
key is absent (`0,0,0`), present with count 1 (`1,0,1` for `F-col 2k`,
`F-col 2k+1`, `X1`), or present with count at least 2 (`1,1,0`). -/
theorem fb_cases {d : List CCard} (h : (d.map ckey).Nodup) (k : CKey) :
    (fb1 d k = 0 ∧ fb2 d k = 0 ∧ x1c d k = 0)
    ∨ (fb1 d k = 1 ∧ fb2 d k = 0 ∧ x1c d k = 1)
    ∨ (fb1 d k = 1 ∧ fb2 d k = 1 ∧ x1c d k = 0) := by
  have h1 := fb1_le_one h k
  have h2 := fb2_le_fb1 d k
  have h3 := fb1_eq_x1c_add_fb2 d k
  omega

/-- The per-key contribution vanishes when both decks have identical feature
values at the key and those values are clean. -/
theorem vterm_self_zero {a : List CCard} (h : (a.map ckey).Nodup) (k : CKey) :
    vterm a a k = 0 := by
  rcases fb_cases h k with ⟨h1, h2, h3⟩ | ⟨h1, h2, h3⟩ | ⟨h1, h2, h3⟩ <;>
    rw [vterm, h1, h2, h3] <;> push_cast <;> ring

/-- `vdist` depends on the decks only through the three feature families. -/
theorem vdist_congr {ks : List CKey} {a a' b b' : List CCard}
    (ha : ∀ k, fb1 a k = fb1 a' k ∧ fb2 a k = fb2 a' k ∧ x1c a k = x1c a' k)
    (hb : ∀ k, fb1 b k = fb1 b' k ∧ fb2 b k = fb2 b' k ∧ x1c b k = x1c b' k) :
    vdist ks a b = vdist ks a' b' := by
  induction ks with
  | nil => rw [vdist_nil, vdist_nil]
  | cons k ks ih =>
    rw [vdist_cons, vdist_cons, ih]
    rcases ha k with ⟨ha1, ha2, ha3⟩
    rcases hb k with ⟨hb1, hb2, hb3⟩
    simp [vterm, ha1, ha2, ha3, hb1, hb2, hb3]

/-- Clamping every count at 2 leaves all three feature families unchanged. -/
theorem fb_clamp (d : List CCard) (k : CKey) :
    fb1 (clampDeck d) k = fb1 d k ∧ fb2 (clampDeck d) k = fb2 d k ∧
    x1c (clampDeck d) k = x1c d k := by
  refine ⟨?_, ?_, ?_⟩
  · rw [fb1, fb1, clampDeck, List.countP_map]
    apply List.countP_congr
    intro c _
    show (decide (ckey c = k) && decide (1 ≤ min c.count 2)) = true
        ↔ (decide (ckey c = k) && decide (1 ≤ c.count)) = true
    rw [decide_eq_decide.mpr (show 1 ≤ min c.count 2 ↔ 1 ≤ c.count by omega)]
  · rw [fb2, fb2, clampDeck, List.countP_map]
    apply List.countP_congr
    intro c _
    show (decide (ckey c = k) && decide (2 ≤ min c.count 2)) = true
        ↔ (decide (ckey c = k) && decide (2 ≤ c.count)) = true
    rw [decide_eq_decide.mpr (show 2 ≤ min c.count 2 ↔ 2 ≤ c.count by omega)]
  · rw [x1c, x1c, clampDeck, List.countP_map]
    apply List.countP_congr
    intro c _
    show (decide (ckey c = k) && decide (min c.count 2 = 1)) = true
        ↔ (decide (ckey c = k) && decide (c.count = 1)) = true
    rw [decide_eq_decide.mpr (show min c.count 2 = 1 ↔ c.count = 1 by omega)]

/-- Entry-wise equality up to the count classes `{0}`, `{1}`, `{2,3,...}` that
the thermometer encoding distinguishes. -/
def countEquiv (a b : CCard) : Prop :=
  a.name = b.name ∧ a.ctype = b.ctype ∧
    (a.count = b.count ∨ (2 ≤ a.count ∧ 2 ≤ b.count))

theorem fb_countEquiv {A B : List CCard} (h : List.Forall₂ countEquiv A B)
    (k : CKey) : fb1 B k = fb1 A k ∧ fb2 B k = fb2 A k ∧ x1c B k = x1c A k := by
  induction h with
  | nil => exact ⟨rfl, rfl, rfl⟩
  | @cons a b la lb hab _ ih =>
    obtain ⟨hn, ht, hc⟩ := hab
    obtain ⟨ih1, ih2, ih3⟩ := ih
    have hkk : ckey b = ckey a := by simp [ckey, hn, ht]
    have h1 : decide (1 ≤ b.count) = decide (1 ≤ a.count) :=
      decide_eq_decide.mpr (by rcases hc with h | ⟨h1, h2⟩ <;> omega)
    have h2 : decide (2 ≤ b.count) = decide (2 ≤ a.count) :=
      decide_eq_decide.mpr (by rcases hc with h | ⟨h1, h2⟩ <;> omega)
    have h3 : decide (b.count = 1) = decide (a.count = 1) :=
      decide_eq_decide.mpr (by rcases hc with h | ⟨h1, h2⟩ <;> omega)
    simp only [fb1, fb2, x1c] at ih1 ih2 ih3
    refine ⟨?_, ?_, ?_⟩ <;>
      simp only [fb1, fb2, x1c, List.countP_cons, hkk, h1, h2, h3, ih1, ih2, ih3]

theorem pokemonKeys_countEquiv {A B : List CCard}
    (h : List.Forall₂ countEquiv A B) : pokemonKeys A = pokemonKeys B := by
  unfold pokemonKeys
  congr 1
  induction h with
  | nil => rfl
  | @cons a b la lb hab _ ih =>
    obtain ⟨hn, ht, -⟩ := hab
    have hc : ckey a = ckey b := by simp [ckey, hn, ht]
    rw [List.filter_cons, List.filter_cons, ht]
    by_cases hp : b.ctype = "Pokemon" <;> simp [hp, hc, ih]

/-- C9 (amended): the distance distinguishes only the count classes 0, 1, and
at-least-2: clamping every count at 2 never changes `vdist`; and -- provided
the decks carry pairwise distinct `(name, type)` keys -- two decks that agree
except for counts within the at-least-2 class (e.g. one card at count 2 vs
count n >= 3) have distance exactly 0, identical bucket masks, and are always
an accepted edge at any nonnegative threshold. -/
theorem distance_clamps_counts_at_two (ks : List CKey) :
    (∀ A B : List CCard, vdist ks (clampDeck A) (clampDeck B) = vdist ks A B)
    ∧ (∀ A B : List CCard, List.Forall₂ countEquiv A B → (A.map ckey).Nodup →
        vdist ks A B = 0 ∧ deckMask ks A = deckMask ks B ∧
        ∀ thr : ℚ, 0 ≤ thr → acceptEdge thr ks A B) := by
  constructor
  · intro A B
    exact vdist_congr (fb_clamp A) (fb_clamp B)
  · intro A B hF hN
    have h0 : vdist ks A B = vdist ks A A :=
      vdist_congr (fun _ => ⟨rfl, rfl, rfl⟩) (fb_countEquiv hF)
    have hz : vdist ks A A = 0 := by
      rw [vdist_eq_sum_vterm]
      rw [List.map_congr_left (fun k _ => vterm_self_zero hN k)]
      simp
    refine ⟨h0.trans hz, ?_, ?_⟩
    · unfold deckMask pokemonIdxs
      rw [pokemonKeys_countEquiv hF]
    · intro thr hthr
      unfold acceptEdge
      rw [h0.trans hz]
      linarith

/-- C9 (witness): `{X(Pokemon) x2}` vs `{X(Pokemon) x5}`: clamping is
invisible, the distance is 0, and the edge is accepted at threshold 1. -/
theorem distance_clamps_counts_at_two_witness :
    List.Forall₂ countEquiv [⟨"X", "Pokemon", 2⟩] [(⟨"X", "Pokemon", 5⟩ : CCard)]
    ∧ (([(⟨"X", "Pokemon", 2⟩ : CCard)]).map ckey).Nodup
    ∧ vdist [("X", "Pokemon")] (clampDeck [⟨"X", "Pokemon", 2⟩])
        (clampDeck [⟨"X", "Pokemon", 5⟩]) =
      vdist [("X", "Pokemon")] [⟨"X", "Pokemon", 2⟩] [⟨"X", "Pokemon", 5⟩]
    ∧ vdist [("X", "Pokemon")] [⟨"X", "Pokemon", 2⟩] [⟨"X", "Pokemon", 5⟩] = 0
    ∧ acceptEdge 1 [("X", "Pokemon")] [⟨"X", "Pokemon", 2⟩] [⟨"X", "Pokemon", 5⟩] := by
  have hF : List.Forall₂ countEquiv [(⟨"X", "Pokemon", 2⟩ : CCard)]
      [(⟨"X", "Pokemon", 5⟩ : CCard)] :=
    List.Forall₂.cons ⟨rfl, rfl, Or.inr ⟨by norm_num, by norm_num⟩⟩ List.Forall₂.nil
  have hN : (([(⟨"X", "Pokemon", 2⟩ : CCard)]).map ckey).Nodup := by decide
  refine ⟨hF, hN, (distance_clamps_counts_at_two _).1 _ _,
    ((distance_clamps_counts_at_two _).2 _ _ hF hN).1,
    ((distance_clamps_counts_at_two _).2 _ _ hF hN).2.2 1 (by norm_num)⟩

/-- C9 (counterexample): with a repeated `(name, type)` key the "distance 0"
part of the claim fails: two decks identical except one card at count 2 vs
count 3 get distance `-4`, not `0` (the duplicated key `X` contributes
negatively). -/
theorem clamp_zero_distance_fails_on_duplicate_keys :
    vdist [("X", "Pokemon"), ("Y", "Pokemon")]
      [⟨"X", "Pokemon", 1⟩, ⟨"X", "Pokemon", 1⟩, ⟨"Y", "Pokemon", 2⟩]
      [⟨"X", "Pokemon", 1⟩, ⟨"X", "Pokemon", 1⟩, ⟨"Y", "Pokemon", 3⟩] = -4
    ∧ (-4 : ℚ) ≠ 0 := by
  constructor
  · simp [vdist, norms, inters, correction, wt, fb1, fb2, x1c, ckey,
      List.countP_cons]
    norm_num
  · norm_num

theorem flatten_map_nil {α β : Type} (L : List β) :
    (L.map (fun _ => ([] : List α))).flatten = [] := by
  induction L with
  | nil => rfl
  | cons a L ih => simp [ih]

/-- Inserting one element into the group of its own label permutes the
flattened grouping by a cons. -/
theorem flatten_insert_perm {α : Type} (p : α) (f : Nat → List α) (l0 : Nat) :
    ∀ L : List Nat, L.Nodup → l0 ∈ L →
      ((L.map (fun l => if l0 = l then p :: f l else f l)).flatten).Perm
        (p :: (L.map f).flatten)
  | [], _, hmem => absurd hmem (List.not_mem_nil l0)
  | a :: L, hnd, hmem => by
    rw [List.nodup_cons] at hnd
    rcases hnd with ⟨hna, hnd⟩
    rcases List.mem_cons.mp hmem with heq | hmemL
    · subst heq
      rw [List.map_cons, List.map_cons, if_pos rfl, List.flatten_cons,
        List.flatten_cons,
        List.map_congr_left (fun l hl => if_neg (fun h => hna (by rw [h]; exact hl)))]
      exact List.Perm.refl _
    · have hne : l0 ≠ a := fun h => hna (h ▸ hmemL)
      rw [List.map_cons, List.map_cons, if_neg hne, List.flatten_cons,
        List.flatten_cons]
      refine List.Perm.trans (List.Perm.append_left (f a)
        (flatten_insert_perm p f l0 L hnd hmemL)) ?_
      exact List.perm_middle

/-- Grouping the pairs by their label and flattening gives back the pairs, up
to permutation, when every label is in the (duplicate-free) label universe. -/
theorem grouped_filter_perm {α : Type} :
    ∀ (pairs : List (α × Nat)) (L : List Nat), L.Nodup →
      (∀ p ∈ pairs, p.2 ∈ L) →
      ((L.map (fun l => pairs.filter (fun p => p.2 == l))).flatten).Perm pairs
  | [], L, _, _ => by
    rw [List.map_congr_left (fun l _ => List.filter_nil _), flatten_map_nil]
  | q :: rest, L, hnd, hmem => by
    have hstep : ∀ l ∈ L, (q :: rest).filter (fun p => p.2 == l) =
        if q.2 = l then q :: rest.filter (fun p => p.2 == l)
          else rest.filter (fun p => p.2 == l) := by
      intro l _
      rw [List.filter_cons]
      by_cases h : q.2 = l
      · rw [if_pos (by simpa using h), if_pos h]
      · rw [if_neg (by simpa using h), if_neg h]
    rw [List.map_congr_left hstep]
    refine List.Perm.trans (flatten_insert_perm q _ q.2 L hnd
      (hmem q (List.mem_cons_self q rest))) ?_
    exact (grouped_filter_perm rest L hnd
      (fun p hp => hmem p (List.mem_cons_of_mem q hp))).cons q

theorem countP_mem_zero_of_counts_zero {C : List (List String)} {s : String}
    (h : (C.map (List.count s)).sum = 0) :
    C.countP (fun cl => decide (s ∈ cl)) = 0 := by
  rw [List.countP_eq_zero]
  intro cl hcl
  simp only [decide_eq_true_eq]
  intro hs
  have hz : List.count s cl = 0 :=
    List.sum_eq_zero_iff.mp h _ (List.mem_map_of_mem (List.count s) hcl)
  exact (List.count_eq_zero.mp hz) hs

theorem countP_mem_one_of_counts_one :
    ∀ {C : List (List String)} {s : String},
      (C.map (List.count s)).sum = 1 →
      C.countP (fun cl => decide (s ∈ cl)) = 1 := by
  intro C
  induction C with
  | nil => intro s h; simp at h
  | cons cl C ih =>
    intro s h
    rw [List.map_cons, List.sum_cons] at h
    rw [List.countP_cons]
    rcases hc : List.count s cl with _ | n
    · have hnm : s ∉ cl := List.count_eq_zero.mp hc
      rw [hc] at h
      simp only [Nat.zero_add] at h
      simp [ih h, hnm]
    · have hmem : s ∈ cl := List.count_pos_iff.mp (by omega)
      have hz : (C.map (List.count s)).sum = 0 := by omega
      simp [countP_mem_zero_of_counts_zero hz, hmem]

/-- C6: for any label assignment into `m` components (one label per
signature, each below `m`), the grouped output is a partition of the input
signatures: the concatenation of all clusters is a permutation of the input
list, and -- the input signatures being distinct -- every signature appears in
exactly one cluster. -/
theorem clusters_form_partition (m : Nat) (sigs : List String)
    (labels : List Nat) (hlen : labels.length = sigs.length)
    (hlt : ∀ l ∈ labels, l < m) (hnd : sigs.Nodup) :
    ((buildClusters m sigs labels).flatten).Perm sigs
    ∧ ∀ s ∈ sigs,
        (buildClusters m sigs labels).countP (fun cl => decide (s ∈ cl)) = 1 := by
  have hperm : ((buildClusters m sigs labels).flatten).Perm sigs := by
    unfold buildClusters
    rw [show (List.range m).map
          (fun l => ((sigs.zip labels).filter (fun p => p.2 == l)).map Prod.fst)
        = ((List.range m).map
            (fun l => (sigs.zip labels).filter (fun p => p.2 == l))).map
              (List.map Prod.fst) by rw [List.map_map]; rfl]
    rw [← List.map_flatten]
    have h1 : ((List.range m).map
        (fun l => (sigs.zip labels).filter (fun p => p.2 == l))).flatten.Perm
          (sigs.zip labels) := by
      refine grouped_filter_perm _ _ (List.nodup_range m) ?_
      intro p hp
      rw [List.mem_range]
      exact hlt p.2 (List.of_mem_zip hp).2
    refine List.Perm.trans (h1.map Prod.fst) ?_
    rw [List.map_fst_zip sigs labels (le_of_eq hlen.symm)]
  refine ⟨hperm, ?_⟩
  intro s hs
  apply countP_mem_one_of_counts_one
  rw [← List.count_flatten]
  rw [hperm.count_eq]
  exact List.count_eq_one_of_mem hnd hs

/-- C6 (witness): three signatures, two components. -/
theorem clusters_form_partition_witness :
    ([1, 0, 1] : List Nat).length = (["a", "b", "c"] : List String).length
    ∧ (∀ l ∈ ([1, 0, 1] : List Nat), l < 2)
    ∧ (["a", "b", "c"] : List String).Nodup
    ∧ ((buildClusters 2 ["a", "b", "c"] [1, 0, 1]).flatten).Perm ["a", "b", "c"]
    ∧ ∀ s ∈ (["a", "b", "c"] : List String),
        (buildClusters 2 ["a", "b", "c"] [1, 0, 1]).countP
          (fun cl => decide (s ∈ cl)) = 1 :=
  ⟨by decide, by decide, by decide,
   (clusters_form_partition 2 ["a", "b", "c"] [1, 0, 1]
     (by decide) (by decide) (by decide)).1,
   (clusters_form_partition 2 ["a", "b", "c"] [1, 0, 1]
     (by decide) (by decide) (by decide)).2⟩

/-! ### Bitmask arithmetic for the bucket pruning -/

theorem sum_range_two_pow (a : Nat) :
    ((Finset.range a).sum (fun i => 2 ^ i)) = 2 ^ a - 1 := by
  induction a with
  | zero => rfl
  | succ a ih =>
    rw [Finset.sum_range_succ, ih]
    have h1 : 1 ≤ 2 ^ a := Nat.one_le_two_pow
    have h2 : 2 ^ (a + 1) = 2 ^ a + 2 ^ a := by ring
    omega

theorem maskOf_lt_two_pow {s : Finset Nat} {a : Nat} (h : ∀ i ∈ s, i < a) :
    maskOf s < 2 ^ a := by
  have hle : maskOf s ≤ (Finset.range a).sum (fun i => 2 ^ i) :=
    Finset.sum_le_sum_of_subset (fun i hi => Finset.mem_range.mpr (h i hi))
  rw [sum_range_two_pow] at hle
  have h1 : 1 ≤ 2 ^ a := Nat.one_le_two_pow
  omega

theorem testBit_two_pow_add {a m j : Nat} (hm : m < 2 ^ a) :
    (2 ^ a + m).testBit j = (decide (j = a) || m.testBit j) := by
  rcases lt_trichotomy j a with h | h | h
  · rw [Nat.testBit_to_div_mod, Nat.testBit_to_div_mod]
    have hsplit : 2 ^ a = 2 ^ j * 2 ^ (a - j) := by
      rw [← pow_add]
      congr 1
      omega
    have hdiv : (2 ^ a + m) / 2 ^ j = m / 2 ^ j + 2 ^ (a - j) := by
      rw [hsplit, Nat.add_comm, Nat.add_mul_div_left m (2 ^ (a - j))
        (Nat.pos_pow_of_pos j (by norm_num))]
    rw [hdiv]
    have hev : 2 ^ (a - j) = 2 * 2 ^ (a - j - 1) := by
      rw [← pow_succ']
      congr 1
      omega
    have hmod : (2 ^ (a - j - 1) * 2 + m / 2 ^ j) % 2 = m / 2 ^ j % 2 := by
      omega
    rw [hev, Nat.add_comm (m / 2 ^ j), Nat.mul_comm, hmod]
    have hne : ¬ (j = a) := Nat.ne_of_lt h
    simp [hne]
  · subst h
    have hd : (2 ^ j + m) / 2 ^ j = 1 := by
      rw [Nat.add_comm, Nat.add_div_right m (Nat.pos_pow_of_pos j (by norm_num)),
        Nat.div_eq_of_lt hm]
    rw [Nat.testBit_to_div_mod, hd]
    simp
  · have h1 : 2 ^ a + m < 2 ^ j := by
      have : 2 ^ (a + 1) ≤ 2 ^ j := Nat.pow_le_pow_right (by norm_num) h
      have : 2 ^ (a + 1) = 2 ^ a + 2 ^ a := by ring
      omega
    have h2 : m < 2 ^ j := by omega
    rw [Nat.testBit_lt_two_pow h1, Nat.testBit_lt_two_pow h2]
    have : ¬ (j = a) := Nat.ne_of_gt h
    simp [this]

theorem testBit_maskOf (s : Finset Nat) (j : Nat) :
    (maskOf s).testBit j = decide (j ∈ s) := by
  induction s using Finset.induction_on_max with
  | h0 => simp [maskOf, Nat.zero_testBit]
  | step a s hmax ih =>
    have hlt : maskOf s < 2 ^ a := maskOf_lt_two_pow hmax
    have hnm : a ∉ s := fun hmem => absurd (hmax a hmem) (lt_irrefl a)
    have hmask : maskOf (insert a s) = 2 ^ a + maskOf s := by
      rw [maskOf, maskOf, Finset.sum_insert hnm]
    rw [hmask, testBit_two_pow_add hlt, ih]
    by_cases h1 : j = a <;> by_cases h2 : j ∈ s <;>
      simp [h1, h2, Finset.mem_insert]

theorem maskOf_xor (s t : Finset Nat) :
    maskOf s ^^^ maskOf t = maskOf (symmDiff s t) := by
  apply Nat.eq_of_testBit_eq
  intro i
  rw [Nat.testBit_xor, testBit_maskOf, testBit_maskOf, testBit_maskOf]
  by_cases hs : i ∈ s <;> by_cases ht : i ∈ t <;>
    simp [hs, ht, Finset.mem_symmDiff]

theorem pow_and_pred (a : Nat) : 2 ^ a &&& (2 ^ a - 1) = 0 := by
  apply Nat.eq_of_testBit_eq
  intro i
  rw [Nat.testBit_land, Nat.zero_testBit, Nat.testBit_two_pow,
    Nat.testBit_two_pow_sub_one]
  by_cases h : a = i <;> simp [h]

theorem two_bits_and_pred {a b : Nat} (h : b < a) :
    (2 ^ a + 2 ^ b) &&& (2 ^ a + 2 ^ b - 1) = 2 ^ a := by
  have h2b : 1 ≤ 2 ^ b := Nat.one_le_two_pow
  have hba : 2 ^ b < 2 ^ a := Nat.pow_lt_pow_right (by norm_num) h
  have heq : 2 ^ a + 2 ^ b - 1 = 2 ^ a + (2 ^ b - 1) := by omega
  apply Nat.eq_of_testBit_eq
  intro i
  rw [Nat.testBit_land, heq, testBit_two_pow_add hba,
    testBit_two_pow_add (show 2 ^ b - 1 < 2 ^ a by omega),
    Nat.testBit_two_pow_sub_one, Nat.testBit_two_pow, Nat.testBit_two_pow]
  by_cases hia : i = a
  · subst hia
    have h1 : ¬ (b = i) := Nat.ne_of_lt h
    have h2 : ¬ (i < b) := by omega
    simp [h1, h2]
  · by_cases hib : b = i
    · subst hib
      have h2 : ¬ (b < b) := lt_irrefl b
      simp [hia, h2, Ne.symm hia]
    · simp [hia, hib, Ne.symm hia]

/-- The source's popcount test accepts whenever the two Pokemon-identity sets
differ by at most two toggles. -/
theorem bucketNeighbor_true_of_card_le_two {s t : Finset Nat}
    (h : (symmDiff s t).card ≤ 2) :
    bucketNeighbor (maskOf s) (maskOf t) = true := by
  unfold bucketNeighbor
  rw [maskOf_xor]
  rcases hc : (symmDiff s t).card with _ | n
  · have hst : s = t := symmDiff_eq_bot.mp (Finset.card_eq_zero.mp hc)
    subst hst
    rw [show symmDiff s s = ⊥ from symmDiff_self s]
    simp [maskOf]
  · rcases hn : n with _ | m
    · subst hn
      obtain ⟨x, hx⟩ := Finset.card_eq_one.mp hc
      rw [hx]
      rw [show maskOf {x} = 2 ^ x from Finset.sum_singleton _ _]
      by_cases hz : (2 : Nat) ^ x = 0
      · simp [hz]
      · simp only [if_neg hz, pow_and_pred]
        simp
    · subst hn
      have hc2 : (symmDiff s t).card = 2 := by omega
      obtain ⟨x, y, hxy, hset⟩ := Finset.card_eq_two.mp hc2
      rcases Nat.lt_or_ge x y with hlt | hge
      · rw [hset, show maskOf {x, y} = 2 ^ y + 2 ^ x by
          rw [maskOf, Finset.sum_pair hxy]
          omega]
        have hy : (2 : Nat) ^ y + 2 ^ x ≠ 0 := by positivity
        simp only [if_neg hy, two_bits_and_pred hlt, pow_and_pred]
        by_cases hz : (2 : Nat) ^ y = 0 <;> simp [hz]
      · have hlt : y < x := by omega
        rw [hset, show maskOf {x, y} = 2 ^ x + 2 ^ y by
          rw [maskOf, Finset.sum_pair hxy]]
        have hx0 : (2 : Nat) ^ x + 2 ^ y ≠ 0 := by positivity
        simp only [if_neg hx0, two_bits_and_pred hlt, pow_and_pred]
        by_cases hz : (2 : Nat) ^ x = 0 <;> simp [hz]

theorem vterm_comm (a b : List CCard) (k : CKey) : vterm a b k = vterm b a k := by
  rw [vterm, vterm]
  ring

theorem vterm_nonneg {a b : List CCard} (ha : (a.map ckey).Nodup)
    (hb : (b.map ckey).Nodup) (k : CKey) : 0 ≤ vterm a b k := by
  rcases fb_cases ha k with ⟨h1, h2, h3⟩ | ⟨h1, h2, h3⟩ | ⟨h1, h2, h3⟩ <;>
    rcases fb_cases hb k with ⟨g1, g2, g3⟩ | ⟨g1, g2, g3⟩ | ⟨g1, g2, g3⟩ <;>
    rw [vterm, h1, h2, h3, g1, g2, g3] <;> push_cast <;> nlinarith [wt_pos k]

/-- A key present (with positive count) in `a` but absent from `b` contributes
at least the full-presence penalty `2*w`. -/
theorem vterm_toggle_ge {a b : List CCard} (ha : (a.map ckey).Nodup)
    (k : CKey) (hpos : 1 ≤ fb1 a k) (hzero : fb1 b k = 0) :
    2 * wt k ≤ vterm a b k := by
  have hb2 : fb2 b k = 0 := by have := fb2_le_fb1 b k; omega
  have hbx : x1c b k = 0 := by have := fb1_eq_x1c_add_fb2 b k; omega
  rcases fb_cases ha k with ⟨h1, h2, h3⟩ | ⟨h1, h2, h3⟩ | ⟨h1, h2, h3⟩
  · omega
  · rw [vterm, h1, h2, h3, hzero, hb2, hbx]
    push_cast
    nlinarith [wt_pos k]
  · rw [vterm, h1, h2, h3, hzero, hb2, hbx]
    push_cast
    nlinarith [wt_pos k]

theorem mem_pokemonKeys_iff {d : List CCard} {k : CKey} :
    k ∈ pokemonKeys d ↔ ∃ c ∈ d, c.ctype = "Pokemon" ∧ ckey c = k := by
  unfold pokemonKeys
  rw [List.mem_toFinset]
  constructor
  · intro h
    obtain ⟨c, hc, hk⟩ := List.mem_map.mp h
    have hf := List.mem_filter.mp hc
    exact ⟨c, hf.1, by simpa using hf.2, hk⟩
  · rintro ⟨c, hc, ht, hk⟩
    exact List.mem_map.mpr ⟨c, List.mem_filter.mpr ⟨hc, by simpa using ht⟩, hk⟩

theorem pokemonKeys_snd {d : List CCard} {k : CKey} (h : k ∈ pokemonKeys d) :
    k.2 = "Pokemon" := by
  obtain ⟨c, _, ht, hk⟩ := mem_pokemonKeys_iff.mp h
  rw [← hk]
  exact ht

theorem fb1_pos_of_pokemonKey {d : List CCard} {k : CKey}
    (h : k ∈ pokemonKeys d) (hc : ∀ c ∈ d, 1 ≤ c.count) : 1 ≤ fb1 d k := by
  obtain ⟨c, hcd, _, hk⟩ := mem_pokemonKeys_iff.mp h
  have hpos : 0 < fb1 d k :=
    List.countP_pos_iff.mpr ⟨c, hcd, by simp [hk, hc c hcd]⟩
  omega

theorem fb1_eq_zero_of_not_pokemonKey {d : List CCard} {k : CKey}
    (hk : k.2 = "Pokemon") (h : k ∉ pokemonKeys d) : fb1 d k = 0 := by
  rw [fb1, List.countP_eq_zero]
  intro c hcd
  simp only [Bool.and_eq_true, decide_eq_true_eq, not_and]
  intro hkey _
  refine absurd (mem_pokemonKeys_iff.mpr ⟨c, hcd, ?_, hkey⟩) h
  have : (ckey c).2 = k.2 := congrArg Prod.snd hkey
  rw [← hk]
  exact this

theorem mem_pokemonIdxs {ks : List CKey} {d : List CCard} (hnd : ks.Nodup)
    (hsub : ∀ c ∈ d, ckey c ∈ ks) {i : Nat} :
    i ∈ pokemonIdxs ks d ↔ ∃ h : i < ks.length, ks.get ⟨i, h⟩ ∈ pokemonKeys d := by
  unfold pokemonIdxs
  rw [Finset.mem_image]
  constructor
  · rintro ⟨k, hk, rfl⟩
    have hkks : k ∈ ks := by
      obtain ⟨c, hc, _, hck⟩ := mem_pokemonKeys_iff.mp hk
      exact hck ▸ hsub c hc
    have hlt : keyIdx ks k < ks.length := List.indexOf_lt_length.mpr hkks
    refine ⟨hlt, ?_⟩
    rw [show ks.get ⟨keyIdx ks k, hlt⟩ = k from List.getElem_indexOf
      (List.indexOf_lt_length.mpr hkks)]
    exact hk
  · rintro ⟨hlt, hmem⟩
    exact ⟨ks.get ⟨i, hlt⟩, hmem, List.indexOf_getElem hnd i hlt⟩

/-- C3 (amended): for decks with pairwise-distinct `(name, type)` keys and
positive counts, drawn from the global key list, and for any threshold with
`threshold + 1e-6 < 3` (the default 1.0 included): three or more Pokemon-set
toggles force distance at least 3, a pair pruned by the bucket test is never
an accepted edge, and hence pruned and exhaustive evaluation accept exactly
the same edges. -/
theorem bucket_pruning_matches_exhaustive (ks : List CKey) (A B : List CCard)
    (hks : ks.Nodup)
    (hsubA : ∀ c ∈ A, ckey c ∈ ks) (hsubB : ∀ c ∈ B, ckey c ∈ ks)
    (hndA : (A.map ckey).Nodup) (hndB : (B.map ckey).Nodup)
    (hcA : ∀ c ∈ A, 1 ≤ c.count) (hcB : ∀ c ∈ B, 1 ≤ c.count)
    (thr : ℚ) (hthr : thr + 1 / 1000000 < 3) :
    (3 ≤ (symmDiff (pokemonIdxs ks A) (pokemonIdxs ks B)).card →
      3 ≤ vdist ks A B)
    ∧ (bucketNeighbor (deckMask ks A) (deckMask ks B) = false →
        ¬ acceptEdge thr ks A B)
    ∧ (acceptEdge thr ks A B ↔
        (bucketNeighbor (deckMask ks A) (deckMask ks B) = true
          ∧ acceptEdge thr ks A B)) := by
  have key_fact : ∀ i ∈ symmDiff (pokemonIdxs ks A) (pokemonIdxs ks B),
      ∃ h : i < ks.length, 1 ≤ vterm A B (ks.get ⟨i, h⟩) := by
    intro i hi
    rcases Finset.mem_symmDiff.mp hi with ⟨hiA, hiB⟩ | ⟨hiB, hiA⟩
    · obtain ⟨hlt, hmem⟩ := (mem_pokemonIdxs hks hsubA).mp hiA
      refine ⟨hlt, ?_⟩
      have hnB : ks.get ⟨i, hlt⟩ ∉ pokemonKeys B := fun hc =>
        hiB ((mem_pokemonIdxs hks hsubB).mpr ⟨hlt, hc⟩)
      have hw : wt (ks.get ⟨i, hlt⟩) = 1 / 2 := by
        rw [wt, if_pos (pokemonKeys_snd hmem)]
      have hb := vterm_toggle_ge hndA (ks.get ⟨i, hlt⟩)
        (fb1_pos_of_pokemonKey hmem hcA)
        (fb1_eq_zero_of_not_pokemonKey (pokemonKeys_snd hmem) hnB)
      rw [hw] at hb
      linarith
    · obtain ⟨hlt, hmem⟩ := (mem_pokemonIdxs hks hsubB).mp hiB
      refine ⟨hlt, ?_⟩
      have hnA : ks.get ⟨i, hlt⟩ ∉ pokemonKeys A := fun hc =>
        hiA ((mem_pokemonIdxs hks hsubA).mpr ⟨hlt, hc⟩)
      have hw : wt (ks.get ⟨i, hlt⟩) = 1 / 2 := by
        rw [wt, if_pos (pokemonKeys_snd hmem)]
      have hb := vterm_toggle_ge hndB (ks.get ⟨i, hlt⟩)
        (fb1_pos_of_pokemonKey hmem hcB)
        (fb1_eq_zero_of_not_pokemonKey (pokemonKeys_snd hmem) hnA)
      rw [hw] at hb
      rw [vterm_comm A B]
      linarith
  have hmain : 3 ≤ (symmDiff (pokemonIdxs ks A) (pokemonIdxs ks B)).card →
      3 ≤ vdist ks A B := by
    intro hcard
    obtain ⟨t, hts, htc⟩ := Finset.exists_subset_card_eq hcard
    obtain ⟨i1, i2, i3, h12, h13, h23, ht⟩ := Finset.card_eq_three.mp htc
    have m1 : i1 ∈ symmDiff (pokemonIdxs ks A) (pokemonIdxs ks B) :=
      hts (by rw [ht]; simp)
    have m2 : i2 ∈ symmDiff (pokemonIdxs ks A) (pokemonIdxs ks B) :=
      hts (by rw [ht]; simp)
    have m3 : i3 ∈ symmDiff (pokemonIdxs ks A) (pokemonIdxs ks B) :=
      hts (by rw [ht]; simp)
    obtain ⟨l1, v1⟩ := key_fact i1 m1
    obtain ⟨l2, v2⟩ := key_fact i2 m2
    obtain ⟨l3, v3⟩ := key_fact i3 m3
    have hk12 : ks.get ⟨i1, l1⟩ ≠ ks.get ⟨i2, l2⟩ := fun h =>
      h12 (congrArg Fin.val (hks.get_inj_iff.mp h))
    have hk13 : ks.get ⟨i1, l1⟩ ≠ ks.get ⟨i3, l3⟩ := fun h =>
      h13 (congrArg Fin.val (hks.get_inj_iff.mp h))
    have hk23 : ks.get ⟨i2, l2⟩ ≠ ks.get ⟨i3, l3⟩ := fun h =>
      h23 (congrArg Fin.val (hks.get_inj_iff.mp h))
    have hsum : vdist ks A B = (ks.toFinset).sum (vterm A B) := by
      rw [vdist_eq_sum_vterm, List.sum_toFinset _ hks]
    have hsubset : ({ks.get ⟨i1, l1⟩, ks.get ⟨i2, l2⟩, ks.get ⟨i3, l3⟩} :
        Finset CKey) ⊆ ks.toFinset := by
      intro x hx
      rw [List.mem_toFinset]
      rcases Finset.mem_insert.mp hx with h | hx2
      · exact h ▸ ks.get_mem _ _
      rcases Finset.mem_insert.mp hx2 with h | hx3
      · exact h ▸ ks.get_mem _ _
      · exact (Finset.mem_singleton.mp hx3) ▸ ks.get_mem _ _
    have hperkey : (({ks.get ⟨i1, l1⟩, ks.get ⟨i2, l2⟩, ks.get ⟨i3, l3⟩} :
        Finset CKey)).sum (vterm A B) =
        vterm A B (ks.get ⟨i1, l1⟩) + vterm A B (ks.get ⟨i2, l2⟩) +
          vterm A B (ks.get ⟨i3, l3⟩) := by
      rw [Finset.sum_insert (by
          simp only [Finset.mem_insert, Finset.mem_singleton, not_or]
          exact ⟨hk12, hk13⟩),
        Finset.sum_insert (by
          simp only [Finset.mem_singleton]
          exact hk23), Finset.sum_singleton]
      ring
    have hmono := Finset.sum_le_sum_of_subset_of_nonneg hsubset
      (fun k _ _ => vterm_nonneg hndA hndB k)
    rw [hsum]
    calc (3 : ℚ) ≤ vterm A B (ks.get ⟨i1, l1⟩) + vterm A B (ks.get ⟨i2, l2⟩) +
          vterm A B (ks.get ⟨i3, l3⟩) := by linarith
      _ = (({ks.get ⟨i1, l1⟩, ks.get ⟨i2, l2⟩, ks.get ⟨i3, l3⟩} :
            Finset CKey)).sum (vterm A B) := hperkey.symm
      _ ≤ _ := hmono
  have hpart2 : bucketNeighbor (deckMask ks A) (deckMask ks B) = false →
      ¬ acceptEdge thr ks A B := by
    intro hfalse hacc
    have hcard : 3 ≤ (symmDiff (pokemonIdxs ks A) (pokemonIdxs ks B)).card := by
      by_contra hlt
      push_neg at hlt
      have htrue : bucketNeighbor (deckMask ks A) (deckMask ks B) = true :=
        bucketNeighbor_true_of_card_le_two (by omega)
      rw [htrue] at hfalse
      exact Bool.noConfusion hfalse
    have h3 := hmain hcard
    have hacc' : vdist ks A B ≤ thr + 1 / 1000000 := hacc
    linarith
  refine ⟨hmain, hpart2, ⟨fun hacc => ⟨?_, hacc⟩, fun h => h.2⟩⟩
  rcases hb : bucketNeighbor (deckMask ks A) (deckMask ks B) with _ | _
  · exact absurd hacc (hpart2 hb)
  · rfl

/-- C3 (counterexample): at the configured threshold 3 the claim fails.  The
decks `{P x1, Q x1, R x1, T(Support) x2}` and `{T(Support) x2}` differ by
exactly 3 Pokemon toggles, so the bucket test prunes the pair, yet their
distance is exactly 3: exhaustive evaluation accepts the edge
(`3 <= 3 + 1e-6`) and the distance is not strictly greater than the
threshold. -/
theorem bucket_pruning_drops_edge_at_threshold_three :
    bucketNeighbor
      (deckMask [("P", "Pokemon"), ("Q", "Pokemon"), ("R", "Pokemon"), ("T", "Support")]
        [⟨"P", "Pokemon", 1⟩, ⟨"Q", "Pokemon", 1⟩, ⟨"R", "Pokemon", 1⟩, ⟨"T", "Support", 2⟩])
      (deckMask [("P", "Pokemon"), ("Q", "Pokemon"), ("R", "Pokemon"), ("T", "Support")]
        [⟨"T", "Support", 2⟩]) = false
    ∧ (symmDiff
        (pokemonIdxs [("P", "Pokemon"), ("Q", "Pokemon"), ("R", "Pokemon"), ("T", "Support")]
          [⟨"P", "Pokemon", 1⟩, ⟨"Q", "Pokemon", 1⟩, ⟨"R", "Pokemon", 1⟩, ⟨"T", "Support", 2⟩])
        (pokemonIdxs [("P", "Pokemon"), ("Q", "Pokemon"), ("R", "Pokemon"), ("T", "Support")]
          [⟨"T", "Support", 2⟩])).card = 3
    ∧ vdist [("P", "Pokemon"), ("Q", "Pokemon"), ("R", "Pokemon"), ("T", "Support")]
        [⟨"P", "Pokemon", 1⟩, ⟨"Q", "Pokemon", 1⟩, ⟨"R", "Pokemon", 1⟩, ⟨"T", "Support", 2⟩]
        [⟨"T", "Support", 2⟩] = 3
    ∧ acceptEdge 3 [("P", "Pokemon"), ("Q", "Pokemon"), ("R", "Pokemon"), ("T", "Support")]
        [⟨"P", "Pokemon", 1⟩, ⟨"Q", "Pokemon", 1⟩, ⟨"R", "Pokemon", 1⟩, ⟨"T", "Support", 2⟩]
        [⟨"T", "Support", 2⟩]
    ∧ ¬ ((3 : ℚ) < 3) := by
  have hv : vdist [("P", "Pokemon"), ("Q", "Pokemon"), ("R", "Pokemon"), ("T", "Support")]
      [⟨"P", "Pokemon", 1⟩, ⟨"Q", "Pokemon", 1⟩, ⟨"R", "Pokemon", 1⟩, ⟨"T", "Support", 2⟩]
      [⟨"T", "Support", 2⟩] = 3 := by
    simp [vdist, norms, inters, correction, wt, fb1, fb2, x1c, ckey, List.countP_cons]
    norm_num
  refine ⟨by decide, by decide, hv, ?_, by norm_num⟩
  show vdist _ _ _ ≤ 3 + 1 / 1000000
  rw [hv]
  norm_num

/-- C3 (witness): a clean pair at the default threshold 1: pruning keeps
exactly the accepted-edge relation. -/
theorem bucket_pruning_matches_exhaustive_witness :
    (([("P", "Pokemon"), ("T", "Support")] : List CKey)).Nodup
    ∧ (([⟨"P", "Pokemon", 1⟩, ⟨"T", "Support", 1⟩] : List CCard).map ckey).Nodup
    ∧ (1 : ℚ) + 1 / 1000000 < 3
    ∧ (acceptEdge 1 [("P", "Pokemon"), ("T", "Support")]
        [⟨"P", "Pokemon", 1⟩, ⟨"T", "Support", 1⟩] [⟨"T", "Support", 1⟩] ↔
      (bucketNeighbor
        (deckMask [("P", "Pokemon"), ("T", "Support")]
          [⟨"P", "Pokemon", 1⟩, ⟨"T", "Support", 1⟩])
        (deckMask [("P", "Pokemon"), ("T", "Support")] [⟨"T", "Support", 1⟩]) = true
        ∧ acceptEdge 1 [("P", "Pokemon"), ("T", "Support")]
            [⟨"P", "Pokemon", 1⟩, ⟨"T", "Support", 1⟩] [⟨"T", "Support", 1⟩])) :=
  ⟨by decide, by decide, by norm_num,
   (bucket_pruning_matches_exhaustive [("P", "Pokemon"), ("T", "Support")]
     [⟨"P", "Pokemon", 1⟩, ⟨"T", "Support", 1⟩] [⟨"T", "Support", 1⟩]
     (by decide) (by decide) (by decide) (by decide) (by decide)
     (by decide) (by decide) 1 (by norm_num)).2.2⟩

/-! ### Refinement: on decks within the data model (counts in {1,2}, no
repeated key) the vectorized distance coincides with the reference formula -/

theorem absent_key_zero {d : List CCard} {k : CKey} (h : k ∉ d.map ckey) :
    cnt d k = 0 ∧ fb1 d k = 0 ∧ fb2 d k = 0 ∧ x1c d k = 0 := by
  have hno : ∀ c ∈ d, ¬ (ckey c = k) := fun c hc he =>
    h (he ▸ List.mem_map_of_mem ckey hc)
  refine ⟨?_, ?_, ?_, ?_⟩
  · rw [cnt, List.filter_eq_nil_iff.mpr (fun c hc => by simpa using hno c hc)]
    rfl
  · rw [fb1, List.countP_eq_zero]
    intro c hc
    simp [hno c hc]
  · rw [fb2, List.countP_eq_zero]
    intro c hc
    simp [hno c hc]
  · rw [x1c, List.countP_eq_zero]
    intro c hc
    simp [hno c hc]

theorem cnt_fb_cases {d : List CCard} (hnd : (d.map ckey).Nodup)
    (hc : ∀ c ∈ d, c.count = 1 ∨ c.count = 2) (k : CKey) :
    (cnt d k = 0 ∧ fb1 d k = 0 ∧ fb2 d k = 0 ∧ x1c d k = 0)
    ∨ (cnt d k = 1 ∧ fb1 d k = 1 ∧ fb2 d k = 0 ∧ x1c d k = 1)
    ∨ (cnt d k = 2 ∧ fb1 d k = 1 ∧ fb2 d k = 1 ∧ x1c d k = 0) := by
  induction d with
  | nil => exact Or.inl ⟨rfl, rfl, rfl, rfl⟩
  | cons c d ih =>
    rw [List.map_cons, List.nodup_cons] at hnd
    rcases hnd with ⟨hnm, hnd⟩
    by_cases hck : ckey c = k
    · have habs : k ∉ d.map ckey := hck ▸ hnm
      obtain ⟨e0, e1, e2, e3⟩ := absent_key_zero habs
      simp only [fb1, fb2, x1c] at e1 e2 e3
      have hcnt : cnt (c :: d) k = c.count := by
        rw [cnt, List.filter_cons, if_pos (by simpa using hck)]
        rw [cnt] at e0
        simp [e0]
      rcases hc c (List.mem_cons_self c d) with h1 | h2
      · refine Or.inr (Or.inl ⟨by rw [hcnt, h1], ?_, ?_, ?_⟩) <;>
          simp [fb1, fb2, x1c, List.countP_cons, e1, e2, e3, hck, h1]
      · refine Or.inr (Or.inr ⟨by rw [hcnt, h2], ?_, ?_, ?_⟩) <;>
          simp [fb1, fb2, x1c, List.countP_cons, e1, e2, e3, hck, h2]
    · have hstep : cnt (c :: d) k = cnt d k ∧ fb1 (c :: d) k = fb1 d k ∧
          fb2 (c :: d) k = fb2 d k ∧ x1c (c :: d) k = x1c d k := by
        refine ⟨?_, ?_, ?_, ?_⟩
        · rw [cnt, cnt, List.filter_cons, if_neg (by simpa using hck)]
        all_goals simp [fb1, fb2, x1c, List.countP_cons, hck]
      rw [hstep.1, hstep.2.1, hstep.2.2.1, hstep.2.2.2]
      exact ih hnd (fun x hx => hc x (List.mem_cons_of_mem c hx))

theorem vterm_eq_specTerm {a b : List CCard}
    (hna : (a.map ckey).Nodup) (hnb : (b.map ckey).Nodup)
    (hca : ∀ c ∈ a, c.count = 1 ∨ c.count = 2)
    (hcb : ∀ c ∈ b, c.count = 1 ∨ c.count = 2) (k : CKey) :
    vterm a b k = specTerm a b k := by
  rcases cnt_fb_cases hna hca k with ⟨e0, e1, e2, e3⟩ | ⟨e0, e1, e2, e3⟩ | ⟨e0, e1, e2, e3⟩ <;>
    rcases cnt_fb_cases hnb hcb k with ⟨f0, f1, f2, f3⟩ | ⟨f0, f1, f2, f3⟩ | ⟨f0, f1, f2, f3⟩ <;>
    rw [vterm, specTerm, e0, e1, e2, e3, f0, f1, f2, f3] <;>
    norm_num <;> ring

/-- On data-model decks -- every count 1 or 2, no repeated `(name, type)`
key -- the vectorized sparse-matrix distance equals the reference per-card
formula of spec section 4.2 for every key universe, so both forms accept
exactly the same edges there. -/
theorem vectorized_equals_reference (ks : List CKey) (A B : List CCard)
    (hndA : (A.map ckey).Nodup) (hndB : (B.map ckey).Nodup)
    (hcA : ∀ c ∈ A, c.count = 1 ∨ c.count = 2)
    (hcB : ∀ c ∈ B, c.count = 1 ∨ c.count = 2) :
    vdist ks A B = specDist ks A B := by
  rw [vdist_eq_sum_vterm, specDist]
  rw [List.map_congr_left (fun k _ => vterm_eq_specTerm hndA hndB hcA hcB k)]

end PTCGP
